import Mathlib

/-!
Verification of the mDNS/DNS codec in nativeMdnsDiscovery.js (and its
duplicate in testing1.js): the query encoder (buildQuery), the name
decoder (readName), the record decoder (parseRecord) and the message
decoder (parseDNSMessage).

Modelling conventions:
- A Node.js Buffer is a list of byte values (each < 256 in real buffers);
  strings are modelled as their byte lists (the repository only handles
  ASCII data, where UTF-8 decoding is the identity on bytes).
- Buffer.readUInt8 / readUInt16BE / readUInt32BE throw a RangeError when
  the read extends past the end of the buffer; this is modelled by
  returning none.
- Buffer.toString(utf8, start, end) and Buffer.slice clamp their range to
  the buffer and never throw; this is modelled by sliceClamp.
- The unbounded while loop of readName is modelled with an explicit fuel
  parameter; RunRes.timeout means the loop did not finish within the
  given number of iterations (for every fuel bound), which is how an
  infinite loop is observed in the model.
-/

namespace MdnsCodec

/-- A Node.js Buffer: a list of byte values. -/
abbrev Buf := List Nat

/-- buffer.readUInt8(i): the byte at index i, or a RangeError (none) when
i is out of bounds. -/
def readUInt8 : Buf → Nat → Option Nat
  | [], _ => none
  | x :: _, 0 => some x
  | _ :: xs, n + 1 => readUInt8 xs n

/-- buffer.readUInt16BE(i): big-endian 16-bit read; throws (none) unless
both bytes are in bounds. -/
def readUInt16BE (b : Buf) (i : Nat) : Option Nat :=
  match readUInt8 b i, readUInt8 b (i + 1) with
  | some hi, some lo => some (hi * 256 + lo)
  | _, _ => none

/-- buffer.readUInt32BE(i): big-endian 32-bit read; throws (none) unless
all four bytes are in bounds. -/
def readUInt32BE (b : Buf) (i : Nat) : Option Nat :=
  match readUInt8 b i, readUInt8 b (i + 1), readUInt8 b (i + 2), readUInt8 b (i + 3) with
  | some a, some c, some d, some e => some (a * 16777216 + c * 65536 + d * 256 + e)
  | _, _, _, _ => none

/-- buffer.toString(utf8, s, e) and buffer.slice(s, e): the bytes from s
(inclusive) to e (exclusive), clamped to the buffer; never throws. -/
def sliceClamp (b : Buf) (s e : Nat) : List Nat :=
  (b.drop s).take (e - s)

/-- Outcome of running a loop-bearing routine: normal result, a thrown
RangeError, or fuel exhaustion (the loop did not finish in that many
iterations). -/
inductive RunRes (α : Type) where
  | ok : α → RunRes α
  | err : RunRes α
  | timeout : RunRes α
deriving DecidableEq, Repr

/-- Result of readName: the decoded labels (each a byte string) and the
readBytes value the source returns (a cursor position in the buffer). -/
structure NameResult where
  labels : List (List Nat)
  readBytes : Nat
deriving DecidableEq, Repr

/-- labels.join with a dot, as Array.prototype.join does. -/
def joinDot : List (List Nat) → List Nat
  | [] => []
  | [l] => l
  | l :: ls => l ++ 46 :: joinDot ls

/-- The while loop of readName. State: cursor offset, accumulated labels,
the jumped flag and originalOffset, exactly as in the source. One unit of
fuel is one loop iteration. -/
def readNameAux (b : Buf) : Nat → Nat → List (List Nat) → Bool → Nat → RunRes NameResult
  | 0, _, _, _, _ => .timeout
  | fuel + 1, off, labels, jumped, origOff =>
    match readUInt8 b off with
    | none => .err
    | some length =>
      if length = 0 then
        .ok ⟨labels, if jumped then origOff else off + 1⟩
      else if length &&& 0xC0 = 0xC0 then
        match readUInt8 b (off + 1) with
        | none => .err
        | some b2 =>
          readNameAux b fuel (((length &&& 0x3F) <<< 8) ||| b2) labels true
            (if jumped then origOff else off + 2)
      else
        readNameAux b fuel (off + 1 + length)
          (labels ++ [sliceClamp b (off + 1) (off + 1 + length)]) jumped origOff

/-- readName(buffer, offset): decode a domain name, following compression
pointers. -/
def readName (b : Buf) (fuel off : Nat) : RunRes NameResult :=
  readNameAux b fuel off [] false off

/-- Specification-side scan: walk plain labels from an offset and report
either the position of the first compression-pointer byte (inl) or the
position of the terminating zero byte (inr) when no pointer occurs. -/
def linearScan (b : Buf) : Nat → Nat → Option (Sum Nat Nat)
  | 0, _ => none
  | fuel + 1, off =>
    match readUInt8 b off with
    | none => none
    | some length =>
      if length = 0 then some (Sum.inr off)
      else if length &&& 0xC0 = 0xC0 then some (Sum.inl off)
      else linearScan b fuel (off + 1 + length)

/-- txt.indexOf(61): index of the first equals-sign byte, if any. -/
def indexOfEq : List Nat → Option Nat
  | [] => none
  | c :: rest => if c = 61 then some 0 else (indexOfEq rest).map (· + 1)

/-- A TXT property value: a byte-string value, or boolean true for a
flag-only entry. -/
inductive TxtVal where
  | str : List Nat → TxtVal
  | flag : TxtVal
deriving DecidableEq, Repr

/-- Split a TXT sub-string on its first equals sign: key and string value
when one is present, the whole string as a flag key otherwise. -/
def txtSplit (s : List Nat) : List Nat × TxtVal :=
  match indexOfEq s with
  | some i => (s.take i, .str (s.drop (i + 1)))
  | none => (s, .flag)

/-- txts[key] = value on a JavaScript object: overwrite the existing
entry in place, or append a new one. -/
def insertTxt : List (List Nat × TxtVal) → List Nat → TxtVal → List (List Nat × TxtVal)
  | [], k, v => [(k, v)]
  | (k2, v2) :: rest, k, v =>
    if k2 = k then (k, v) :: rest else (k2, v2) :: insertTxt rest k v

/-- Lookup in the TXT property object. -/
def lookupTxt : List (List Nat × TxtVal) → List Nat → Option TxtVal
  | [], _ => none
  | (k2, v2) :: rest, k => if k2 = k then some v2 else lookupTxt rest k

/-- The TXT sub-string loop of parseRecord: while (offset < end) read a
length byte, slice that many bytes (clamped), split on the first equals
sign and store. The fuel is one unit per iteration; rdlength units always
suffice since the cursor advances by at least one per iteration. -/
def parseTxtAux (b : Buf) (endPos : Nat) : Nat → Nat → List (List Nat × TxtVal) → RunRes (List (List Nat × TxtVal) × Nat)
  | fuel, off, m =>
    if off < endPos then
      match fuel with
      | 0 => .timeout
      | fuel + 1 =>
        match readUInt8 b off with
        | none => .err
        | some txtLen =>
          let kv := txtSplit (sliceClamp b (off + 1) (off + 1 + txtLen))
          parseTxtAux b endPos fuel (off + 1 + txtLen) (insertTxt m kv.1 kv.2)
    else .ok (m, off)

/-- The A-record loop: read rdlength individual bytes, each a bounds-
checked readUInt8. -/
def readBytesN (b : Buf) : Nat → Nat → Option (List Nat)
  | _, 0 => some []
  | off, n + 1 =>
    match readUInt8 b off with
    | none => none
    | some x => (readBytesN b (off + 1) n).map (x :: ·)

/-- Decimal ASCII digits of a number, for ipBytes.join formatting. -/
def natDecimal (n : Nat) : List Nat :=
  (Nat.toDigits 10 n).map Char.toNat

/-- The type-tagged rdata payload of a parsed record. -/
inductive Rdata where
  | ptrName : List Nat → Rdata
  | srv : Nat → Nat → Nat → List Nat → Rdata
  | txt : List (List Nat × TxtVal) → Rdata
  | aRec : List Nat → Rdata
  | raw : List Nat → Rdata
deriving DecidableEq, Repr

/-- A parsed resource record, with the next-record offset the source
returns alongside it. -/
structure DNSRecord where
  name : List Nat
  type : Nat
  cls : Nat
  ttl : Nat
  rdlength : Nat
  rdata : Rdata
  offset : Nat
deriving DecidableEq, Repr

/-- The type dispatch of parseRecord, after the record header has been
read; off is the start of the rdata. All branches except TXT advance the
returned offset by rdlength; TXT returns its loop cursor directly. -/
def parseRdata (b : Buf) (fuel : Nat) (name : List Nat) (ty cls ttl rdlength off : Nat) : RunRes DNSRecord :=
  if ty = 12 then
    match readName b fuel off with
    | .ok nr => .ok ⟨name, ty, cls, ttl, rdlength, .ptrName (joinDot nr.labels), off + rdlength⟩
    | .err => .err
    | .timeout => .timeout
  else if ty = 33 then
    match readUInt16BE b off, readUInt16BE b (off + 2), readUInt16BE b (off + 4) with
    | some pri, some wt, some port =>
      match readName b fuel (off + 6) with
      | .ok tr => .ok ⟨name, ty, cls, ttl, rdlength, .srv pri wt port (joinDot tr.labels), off + rdlength⟩
      | .err => .err
      | .timeout => .timeout
    | _, _, _ => .err
  else if ty = 16 then
    match parseTxtAux b (off + rdlength) rdlength off [] with
    | .ok mr => .ok ⟨name, ty, cls, ttl, rdlength, .txt mr.1, mr.2⟩
    | .err => .err
    | .timeout => .timeout
  else if ty = 1 then
    match readBytesN b off rdlength with
    | some bs => .ok ⟨name, ty, cls, ttl, rdlength, .aRec (joinDot (bs.map natDecimal)), off + rdlength⟩
    | none => .err
  else
    .ok ⟨name, ty, cls, ttl, rdlength, .raw (sliceClamp b off (off + rdlength)), off + rdlength⟩

/-- parseRecord(buffer, offset): name, four header fields, then the
type-dispatched rdata parse. -/
def parseRecord (b : Buf) (fuel off : Nat) : RunRes DNSRecord :=
  match readName b fuel off with
  | .ok nr =>
    match readUInt16BE b nr.readBytes, readUInt16BE b (nr.readBytes + 2),
          readUInt32BE b (nr.readBytes + 4), readUInt16BE b (nr.readBytes + 8) with
    | some ty, some cls, some ttl, some rdlength =>
      parseRdata b fuel (joinDot nr.labels) ty cls ttl rdlength (nr.readBytes + 10)
    | _, _, _, _ => .err
  | .err => .err
  | .timeout => .timeout

/-- The six-field DNS message header. -/
structure DNSHeader where
  id : Nat
  flags : Nat
  qdcount : Nat
  ancount : Nat
  nscount : Nat
  arcount : Nat
deriving DecidableEq, Repr

/-- The question-skipping loop of parseDNSMessage: decode each question
name, then advance 4 further bytes (qtype and qclass, not read). -/
def skipQuestions (b : Buf) (fuel : Nat) : Nat → Nat → RunRes Nat
  | 0, off => .ok off
  | n + 1, off =>
    match readName b fuel off with
    | .ok nr => skipQuestions b fuel n (nr.readBytes + 4)
    | .err => .err
    | .timeout => .timeout

/-- The record loop of parseDNSMessage. -/
def parseRecords (b : Buf) (fuel : Nat) : Nat → Nat → List DNSRecord → RunRes (List DNSRecord)
  | 0, _, acc => .ok acc
  | n + 1, off, acc =>
    match parseRecord b fuel off with
    | .ok r => parseRecords b fuel n r.offset (acc ++ [r])
    | .err => .err
    | .timeout => .timeout

/-- parseDNSMessage(buffer): header, question skip, then
ancount + nscount + arcount records. -/
def parseDNSMessage (b : Buf) (fuel : Nat) : RunRes (DNSHeader × List DNSRecord) :=
  match readUInt16BE b 0, readUInt16BE b 2, readUInt16BE b 4,
        readUInt16BE b 6, readUInt16BE b 8, readUInt16BE b 10 with
  | some i, some f, some qd, some an, some ns, some ar =>
    match skipQuestions b fuel qd 12 with
    | .ok off =>
      match parseRecords b fuel (an + ns + ar) off [] with
      | .ok recs => .ok (⟨i, f, qd, an, ns, ar⟩, recs)
      | .err => .err
      | .timeout => .timeout
    | .err => .err
    | .timeout => .timeout
  | _, _, _, _, _, _ => .err

/-- buffer.writeUInt16BE: the two big-endian bytes of a 16-bit value
(exact for values below 65536, which the encoder contract guarantees). -/
def writeU16 (v : Nat) : List Nat :=
  [v / 256 % 256, v % 256]

/-- The fixed 12-byte query header: id 0, flags 0, qdcount 1, other
counts 0. -/
def headerBytes : List Nat :=
  writeU16 0 ++ writeU16 0 ++ writeU16 1 ++ writeU16 0 ++ writeU16 0 ++ writeU16 0

/-- String.prototype.split on a dot, keeping empty parts. -/
def splitOnDot : List Nat → List (List Nat)
  | [] => [[]]
  | c :: rest =>
    if c = 46 then [] :: splitOnDot rest
    else
      match splitOnDot rest with
      | [] => [[c]]
      | p :: ps => (c :: p) :: ps

/-- The length-prefixed wire encoding of a label sequence followed by the
zero terminator (writeUInt8 of each label length, then the label). -/
def encNameBytes : List (List Nat) → List Nat
  | [] => [0]
  | p :: ps => (p.length % 256) :: p ++ encNameBytes ps

/-- The QNAME loop of buildQuery: split parts, skip empty ones, write
each as a length byte plus label bytes, terminate with zero. -/
def encodeQname (parts : List (List Nat)) : List Nat :=
  encNameBytes (parts.filter (fun p => !p.isEmpty))

/-- buildQuery generalised to the encoder contract encode_query(name,
qtype, qclass); the source instantiates it at the fixed service name,
type 12 and class 1. -/
def buildQueryFor (name : List Nat) (qtype qclass : Nat) : List Nat :=
  headerBytes ++ encodeQname (splitOnDot name) ++ writeU16 qtype ++ writeU16 qclass

/-- ASCII byte list of a string literal. -/
def strBytes (s : String) : List Nat :=
  s.toList.map Char.toNat

/-- The service name constant of nativeMdnsDiscovery.js. -/
def serviceQuery : List Nat := strBytes "_smart_ip._tcp.local."

/-- buildQuery() as in the source. -/
def buildQuery : List Nat := buildQueryFor serviceQuery 12 1

end MdnsCodec

namespace MdnsCodec

theorem readUInt8_eq_head_drop : ∀ (b : Buf) (j : Nat), readUInt8 b j = (b.drop j).head?
  | [], j => by cases j <;> rfl
  | _ :: _, 0 => rfl
  | _ :: xs, j + 1 => by simpa [readUInt8] using readUInt8_eq_head_drop xs j

theorem drop_shift (b : Buf) (j k : Nat) : b.drop (j + k) = (b.drop j).drop k := by
  rw [List.drop_drop, Nat.add_comm]

theorem readUInt8_ofDrop (b : Buf) (j x : Nat) (t : Buf) (h : b.drop j = x :: t) :
    readUInt8 b j = some x := by
  rw [readUInt8_eq_head_drop, h]; rfl

theorem readUInt16BE_ofDrop (b : Buf) (j x y : Nat) (t : Buf) (h : b.drop j = x :: y :: t) :
    readUInt16BE b j = some (x * 256 + y) := by
  have h1 : readUInt8 b j = some x := readUInt8_ofDrop b j x (y :: t) h
  have h2 : readUInt8 b (j + 1) = some y := by
    rw [readUInt8_eq_head_drop, drop_shift b j 1, h]; rfl
  simp [readUInt16BE, h1, h2]

theorem take_len_append : ∀ (l t : List Nat), (l ++ t).take l.length = l
  | [], _ => rfl
  | x :: xs, t => by simp [take_len_append xs t]

theorem drop_len_append : ∀ (l t : List Nat), (l ++ t).drop l.length = t
  | [], _ => rfl
  | _ :: xs, t => by simp [drop_len_append xs t]

set_option maxRecDepth 4000 in
theorem land_ne_c0 : ∀ m, m < 192 → ¬ (m &&& 192 = 192) := by decide

/-- The loop body never changes readBytes once a pointer has been
followed: with jumped set, the eventual result returns the recorded
originalOffset, whatever happens in the jumped-to region. -/
theorem readNameAux_jumped :
    ∀ (fuel : Nat) (b : Buf) (off : Nat) (labels : List (List Nat)) (origOff : Nat)
      (r : NameResult), readNameAux b fuel off labels true origOff = .ok r →
      r.readBytes = origOff := by
  intro fuel
  induction fuel with
  | zero => intro b off labels origOff r h; exact RunRes.noConfusion h
  | succ f ih =>
    intro b off labels origOff r h
    rw [readNameAux] at h
    cases h8 : readUInt8 b off with
    | none => rw [h8] at h; exact RunRes.noConfusion h
    | some len =>
      rw [h8] at h
      dsimp only at h
      by_cases hz : len = 0
      · rw [if_pos hz] at h
        injection h with h2
        rw [← h2]
        simp
      · rw [if_neg hz] at h
        by_cases hc : len &&& 0xC0 = 0xC0
        · rw [if_pos hc] at h
          cases h9 : readUInt8 b (off + 1) with
          | none => rw [h9] at h; exact RunRes.noConfusion h
          | some b2 =>
            rw [h9] at h
            dsimp only at h
            exact ih b _ labels origOff r h
        · rw [if_neg hc] at h
          exact ih b _ _ origOff r h

/-- Parsing a plain, pointer-free label sequence: the loop appends the
labels and, when no pointer was followed before, consumes exactly the
encoded length. -/
theorem readNameAux_plain :
    ∀ (parts : List (List Nat)) (b : Buf) (fuel off : Nat) (labels : List (List Nat))
      (jumped : Bool) (origOff : Nat) (rest : List Nat),
      b.drop off = encNameBytes parts ++ rest →
      (∀ l ∈ parts, 1 ≤ l.length ∧ l.length ≤ 191) →
      parts.length < fuel →
      readNameAux b fuel off labels jumped origOff =
        .ok ⟨labels ++ parts, if jumped then origOff else off + (encNameBytes parts).length⟩
  | [], b, fuel, off, labels, jumped, origOff, rest, hdrop, _, hfuel => by
    obtain ⟨f, rfl⟩ : ∃ f, fuel = f + 1 := ⟨fuel - 1, by omega⟩
    have h0 : readUInt8 b off = some 0 := readUInt8_ofDrop b off 0 rest hdrop
    simp [readNameAux, h0, encNameBytes]
  | p :: ps, b, fuel, off, labels, jumped, origOff, rest, hdrop, hlens, hfuel => by
    obtain ⟨f, rfl⟩ : ∃ f, fuel = f + 1 := ⟨fuel - 1, by omega⟩
    have hp := hlens p (by simp)
    have hmod : p.length % 256 = p.length := Nat.mod_eq_of_lt (by omega)
    have hdrop1 : b.drop off = p.length :: (p ++ (encNameBytes ps ++ rest)) := by
      rw [hdrop]; simp [encNameBytes, hmod]
    have h0 : readUInt8 b off = some p.length := readUInt8_ofDrop b off _ _ hdrop1
    have hne : ¬ (p.length = 0) := by omega
    have hnc : ¬ (p.length &&& 0xC0 = 0xC0) := land_ne_c0 p.length (by omega)
    have hdroptail : b.drop (off + 1) = p ++ (encNameBytes ps ++ rest) := by
      rw [drop_shift b off 1, hdrop1]; rfl
    have hslice : sliceClamp b (off + 1) (off + 1 + p.length) = p := by
      unfold sliceClamp
      rw [hdroptail]
      have he : off + 1 + p.length - (off + 1) = p.length := by omega
      rw [he, take_len_append]
    have hdropnext : b.drop (off + 1 + p.length) = encNameBytes ps ++ rest := by
      have : off + 1 + p.length = (off + 1) + p.length := rfl
      rw [this, drop_shift b (off + 1) p.length, hdroptail, drop_len_append]
    have ih := readNameAux_plain ps b f (off + 1 + p.length) (labels ++ [p]) jumped origOff
      rest hdropnext (fun l hl => hlens l (by simp [hl])) (by simp at hfuel; omega)
    rw [readNameAux, h0]
    dsimp only
    rw [if_neg hne, if_neg hnc, hslice, ih]
    have hlen : (encNameBytes (p :: ps)).length = 1 + p.length + (encNameBytes ps).length := by
      simp [encNameBytes]
      omega
    have hlist : labels ++ [p] ++ ps = labels ++ (p :: ps) := by simp
    cases jumped with
    | true =>
      rw [hlist]
      simp
    | false =>
      rw [hlist, hlen]
      have harith : off + 1 + p.length + (encNameBytes ps).length =
          off + (1 + p.length + (encNameBytes ps).length) := by omega
      rw [harith]

end MdnsCodec

namespace MdnsCodec

/-- Relates a successful pointer-free start of the loop to linearScan:
the result's readBytes is determined by the first terminator or first
pointer that the linear walk meets. -/
theorem readNameAux_linear :
    ∀ (fuel : Nat) (b : Buf) (off : Nat) (labels : List (List Nat)) (origOff : Nat)
      (r : NameResult), readNameAux b fuel off labels false origOff = .ok r →
      (∃ z, linearScan b fuel off = some (Sum.inr z) ∧ r.readBytes = z + 1) ∨
      (∃ p, linearScan b fuel off = some (Sum.inl p) ∧ r.readBytes = p + 2) := by
  intro fuel
  induction fuel with
  | zero => intro b off labels origOff r h; exact RunRes.noConfusion h
  | succ f ih =>
    intro b off labels origOff r h
    rw [readNameAux] at h
    cases h8 : readUInt8 b off with
    | none => rw [h8] at h; exact RunRes.noConfusion h
    | some len =>
      rw [h8] at h
      dsimp only at h
      by_cases hz : len = 0
      · rw [if_pos hz] at h
        injection h with h2
        refine Or.inl ⟨off, ?_, ?_⟩
        · rw [linearScan, h8]; dsimp only; rw [if_pos hz]
        · rw [← h2]; simp
      · rw [if_neg hz] at h
        by_cases hc : len &&& 0xC0 = 0xC0
        · rw [if_pos hc] at h
          cases h9 : readUInt8 b (off + 1) with
          | none => rw [h9] at h; exact RunRes.noConfusion h
          | some b2 =>
            rw [h9] at h
            dsimp only at h
            refine Or.inr ⟨off, ?_, ?_⟩
            · rw [linearScan, h8]; dsimp only; rw [if_neg hz, if_pos hc]
            · exact readNameAux_jumped f b _ labels (off + 2) r h
        · rw [if_neg hc] at h
          have := ih b (off + 1 + len) _ origOff r h
          rw [linearScan, h8]
          dsimp only
          rw [if_neg hz, if_neg hc]
          exact this

end MdnsCodec

namespace MdnsCodec

/-- Claim C1: whenever readName succeeds, its readBytes is the cursor
position immediately after the terminating zero byte when the linear walk
met no compression pointer, and the position of the first pointer
encountered plus 2 when it did, unaffected by any later pointer in the
chain. -/
theorem readName_readBytes_characterization (b : Buf) (fuel off : Nat) (r : NameResult)
    (h : readName b fuel off = .ok r) :
    (∃ z, linearScan b fuel off = some (Sum.inr z) ∧ r.readBytes = z + 1) ∨
    (∃ p, linearScan b fuel off = some (Sum.inl p) ∧ r.readBytes = p + 2) :=
  readNameAux_linear fuel b off [] off r h

/-- Witness for C1 at the concrete buffer [1, 97, 0] (label "a" then the
zero terminator), where readName returns readBytes 3. -/
theorem readName_readBytes_characterization_witness :
    (∃ z, linearScan [1, 97, 0] 8 0 = some (Sum.inr z) ∧ (3 : Nat) = z + 1) ∨
    (∃ p, linearScan [1, 97, 0] 8 0 = some (Sum.inl p) ∧ (3 : Nat) = p + 2) :=
  readName_readBytes_characterization [1, 97, 0] 8 0 ⟨[[97]], 3⟩ (by decide)

/-- Once jumped, the loop over the self-pointing buffer never leaves
offset 0 and never terminates, for every fuel bound. -/
theorem selfPointer_aux : ∀ (fuel : Nat) (labels : List (List Nat)) (origOff : Nat),
    readNameAux [192, 0] fuel 0 labels true origOff = .timeout
  | 0, _, _ => rfl
  | fuel + 1, labels, origOff => by
    rw [readNameAux]
    have h8 : readUInt8 [192, 0] 0 = some 192 := rfl
    rw [h8]
    dsimp only
    rw [if_neg (by decide), if_pos (by decide)]
    have h9 : readUInt8 [192, 0] 1 = some 0 := rfl
    rw [h9]
    dsimp only
    have hptr : ((192 &&& 0x3F) <<< 8) ||| 0 = 0 := by decide
    rw [hptr]
    exact selfPointer_aux fuel labels origOff

/-- Claim C2 (code_bug evidence): on the buffer [0xC0, 0x00] — a
compression pointer at offset 0 that targets offset 0 — readName never
finishes: for every iteration bound the loop is still running. The code
has no hop-count guard and no NameCompressionLoop error. -/
theorem readName_self_pointer_diverges : ∀ fuel : Nat, readName [192, 0] fuel 0 = RunRes.timeout
  | 0 => rfl
  | fuel + 1 => by
    rw [readName, readNameAux]
    have h8 : readUInt8 [192, 0] 0 = some 192 := rfl
    rw [h8]
    dsimp only
    rw [if_neg (by decide), if_pos (by decide)]
    have h9 : readUInt8 [192, 0] 1 = some 0 := rfl
    rw [h9]
    dsimp only
    have hptr : ((192 &&& 0x3F) <<< 8) ||| 0 = 0 := by decide
    rw [hptr]
    exact selfPointer_aux fuel [] 2

end MdnsCodec

namespace MdnsCodec

set_option maxRecDepth 2000 in
theorem land_c0_hi : ∀ h, h < 64 → (192 + h) &&& 192 = 192 := by decide

set_option maxRecDepth 2000 in
theorem land_3f_hi : ∀ h, h < 64 → (192 + h) &&& 63 = h := by decide

set_option maxRecDepth 80000 in
theorem lor_shift_byte : ∀ h, h < 64 → ∀ lo, lo < 256 → (h <<< 8) ||| lo = h * 256 + lo := by
  decide

/-- Claim C5: when a pointer-free encoding of a label sequence sits at
offset p1 and the two bytes at p2 are the wire-format compression pointer
to p1, readName decodes the same labels (hence the same dot-joined name)
at both offsets, and at the pointer occurrence it consumes exactly 2
bytes: readBytes is p2 + 2. -/
theorem readName_compressed_second_occurrence
    (b : Buf) (parts : List (List Nat)) (p1 p2 fuel : Nat) (rest : List Nat)
    (hname : b.drop p1 = encNameBytes parts ++ rest)
    (hlens : ∀ l ∈ parts, 1 ≤ l.length ∧ l.length ≤ 63)
    (hp1 : p1 < 16384)
    (hb1 : readUInt8 b p2 = some (192 + p1 / 256))
    (hb2 : readUInt8 b (p2 + 1) = some (p1 % 256))
    (hfuel : parts.length + 1 < fuel) :
    ∃ r1 r2, readName b fuel p1 = .ok r1 ∧ readName b fuel p2 = .ok r2 ∧
      r1.labels = parts ∧ r2.labels = parts ∧
      joinDot r2.labels = joinDot r1.labels ∧
      r2.readBytes = p2 + 2 ∧
      r1.readBytes = p1 + (encNameBytes parts).length := by
  have hlens2 : ∀ l ∈ parts, 1 ≤ l.length ∧ l.length ≤ 191 := by
    intro l hl
    have := hlens l hl
    omega
  refine ⟨⟨parts, p1 + (encNameBytes parts).length⟩, ⟨parts, p2 + 2⟩, ?_, ?_, rfl, rfl, rfl, rfl, rfl⟩
  · rw [readName]
    have := readNameAux_plain parts b fuel p1 [] false p1 rest hname hlens2 (by omega)
    rw [this]
    simp
  · rw [readName]
    obtain ⟨f, rfl⟩ : ∃ f, fuel = f + 1 := ⟨fuel - 1, by omega⟩
    have hd : p1 / 256 < 64 := by omega
    rw [readNameAux, hb1]
    dsimp only
    rw [if_neg (by omega), if_pos (land_c0_hi (p1 / 256) hd), hb2]
    dsimp only
    rw [land_3f_hi (p1 / 256) hd,
      lor_shift_byte (p1 / 256) hd (p1 % 256) (by omega)]
    have hval : p1 / 256 * 256 + p1 % 256 = p1 := by omega
    rw [hval, if_neg (by decide : ¬ (false = true))]
    have := readNameAux_plain parts b f p1 [] true (p2 + 2) rest hname hlens2
      (by simp at hfuel ⊢; omega)
    rw [this]
    try simp

/-- Witness for C5: the name "a" encoded at offset 0 of
[1, 97, 0, 192, 0], with a pointer to it at offset 3. -/
theorem readName_compressed_second_occurrence_witness :
    ∃ r1 r2, readName [1, 97, 0, 192, 0] 4 0 = .ok r1 ∧
      readName [1, 97, 0, 192, 0] 4 3 = .ok r2 ∧
      r1.labels = [[97]] ∧ r2.labels = [[97]] ∧
      joinDot r2.labels = joinDot r1.labels ∧
      r2.readBytes = 3 + 2 ∧
      r1.readBytes = 0 + (encNameBytes [[97]]).length :=
  readName_compressed_second_occurrence [1, 97, 0, 192, 0] [[97]] 0 3 4 [192, 0]
    (by decide) (by decide) (by decide) (by decide) (by decide) (by decide)

/-- Claim C10: a length byte in 64..191 (reserved flag patterns 01 and
10, above the 63-byte label limit) is not rejected: readName treats it as
a plain label length, reads that many bytes as a label and continues. -/
theorem readName_reserved_length_as_label (b : Buf) (off L fuel : Nat) (c rest : List Nat)
    (hL1 : 64 ≤ L) (hL2 : L ≤ 191) (hc : c.length = L)
    (hdrop : b.drop off = encNameBytes [c] ++ rest) (hfuel : 1 < fuel) :
    readName b fuel off = .ok ⟨[c], off + (L + 2)⟩ := by
  have hlen : (encNameBytes [c]).length = L + 2 := by
    simp [encNameBytes, hc]
  rw [readName]
  have := readNameAux_plain [c] b fuel off [] false off rest hdrop
    (by intro l hl; simp at hl; subst hl; omega) (by simp; omega)
  rw [this, hlen]
  try simp

/-- Witness for C10: a 64-byte label under length byte 64 is accepted. -/
theorem readName_reserved_length_as_label_witness :
    readName (encNameBytes [List.replicate 64 97] ++ []) 2 0 =
      .ok ⟨[List.replicate 64 97], 0 + (64 + 2)⟩ :=
  readName_reserved_length_as_label (encNameBytes [List.replicate 64 97] ++ [])
    0 64 2 (List.replicate 64 97) [] (by decide) (by decide) (by decide) (by decide) (by decide)

/-- Claim C4 counterexample: the byte sequence the claim enumerates is
38 bytes long, not 39; the claimed total length is false. -/
theorem buildQuery_not_39_bytes :
    (buildQueryFor (strBytes "_smart_ip._tcp.local") 12 1).length = 38 ∧ (38 : Nat) ≠ 39 := by
  decide

/-- Claim C4 as amended: encode_query on name _smart_ip._tcp.local,
type 12, class 1 returns exactly the enumerated 38-byte sequence (12
header bytes, the three length-prefixed labels, the zero terminator and
the 4-byte question tail), and the source's fixed buildQuery() produces
those same bytes. -/
theorem buildQuery_smart_ip_bytes :
    buildQueryFor (strBytes "_smart_ip._tcp.local") 12 1 =
      [0, 0, 0, 0, 0, 1, 0, 0, 0, 0, 0, 0,
       9, 95, 115, 109, 97, 114, 116, 95, 105, 112,
       4, 95, 116, 99, 112,
       5, 108, 111, 99, 97, 108,
       0,
       0, 12, 0, 1] ∧
    buildQuery = buildQueryFor (strBytes "_smart_ip._tcp.local") 12 1 := by
  decide

end MdnsCodec

namespace MdnsCodec

theorem splitOnDot_nodot : ∀ (l : List Nat), (∀ c ∈ l, c ≠ 46) → splitOnDot l = [l]
  | [], _ => rfl
  | c :: rest, h => by
    have hc : c ≠ 46 := h c (by simp)
    have ih := splitOnDot_nodot rest (fun d hd => h d (by simp [hd]))
    simp [splitOnDot, hc, ih]

theorem splitOnDot_append : ∀ (l t : List Nat), (∀ c ∈ l, c ≠ 46) →
    splitOnDot (l ++ 46 :: t) = l :: splitOnDot t
  | [], t, _ => by simp [splitOnDot]
  | c :: l, t, h => by
    have hc : c ≠ 46 := h c (by simp)
    have ih := splitOnDot_append l t (fun d hd => h d (by simp [hd]))
    simp [splitOnDot, hc, ih]

theorem isEmpty_false_of_ne_nil {l : List Nat} (h : l ≠ []) : l.isEmpty = false := by
  cases l with
  | nil => exact absurd rfl h
  | cons a as => rfl

/-- Splitting the dot-join of non-empty dot-free labels and dropping
empty parts recovers the labels. -/
theorem filter_splitOnDot_joinDot : ∀ (parts : List (List Nat)),
    (∀ l ∈ parts, l ≠ [] ∧ ∀ c ∈ l, c ≠ 46) →
    (splitOnDot (joinDot parts)).filter (fun p => !p.isEmpty) = parts
  | [], _ => rfl
  | [l], h => by
    have hl := h l (by simp)
    have h1 : joinDot [l] = l := rfl
    rw [h1, splitOnDot_nodot l hl.2]
    simp [List.filter, isEmpty_false_of_ne_nil hl.1]
  | l :: m :: ps, h => by
    have hl := h l (by simp)
    have ih := filter_splitOnDot_joinDot (m :: ps) (fun x hx => h x (by simp [hx]))
    have h1 : joinDot (l :: m :: ps) = l ++ 46 :: joinDot (m :: ps) := rfl
    rw [h1, splitOnDot_append l _ hl.2]
    simp only [List.filter, isEmpty_false_of_ne_nil hl.1, Bool.not_false, ih]

/-- Claim C9: encoding a query for a name of non-empty, dot-free labels
of at most 63 bytes with type T and class C, then decoding the question
section (readName at offset 12 followed by two big-endian u16 reads),
recovers the labels, T and C exactly. -/
theorem buildQuery_roundtrip (parts : List (List Nat)) (T C fuel : Nat)
    (hparts : ∀ l ∈ parts, l ≠ [] ∧ l.length ≤ 63 ∧ ∀ c ∈ l, c ≠ 46)
    (hT : T < 65536) (hC : C < 65536) (hfuel : parts.length < fuel) :
    ∃ r, readName (buildQueryFor (joinDot parts) T C) fuel 12 = .ok r ∧
      r.labels = parts ∧
      readUInt16BE (buildQueryFor (joinDot parts) T C) r.readBytes = some T ∧
      readUInt16BE (buildQueryFor (joinDot parts) T C) (r.readBytes + 2) = some C := by
  have hlens2 : ∀ l ∈ parts, 1 ≤ l.length ∧ l.length ≤ 191 := by
    intro l hl
    obtain ⟨h1, h2, _⟩ := hparts l hl
    cases l with
    | nil => exact absurd rfl h1
    | cons a as =>
      refine ⟨by simp, ?_⟩
      simp_all
      omega
  have hsplit : encodeQname (splitOnDot (joinDot parts)) = encNameBytes parts := by
    rw [encodeQname, filter_splitOnDot_joinDot parts
      (fun l hl => ⟨(hparts l hl).1, (hparts l hl).2.2⟩)]
  have hQ : buildQueryFor (joinDot parts) T C =
      [0, 0, 0, 0, 0, 1, 0, 0, 0, 0, 0, 0] ++
        (encNameBytes parts ++ (writeU16 T ++ writeU16 C)) := by
    rw [buildQueryFor, hsplit]
    simp [headerBytes, writeU16]
  have hdrop12 : (buildQueryFor (joinDot parts) T C).drop 12 =
      encNameBytes parts ++ (writeU16 T ++ writeU16 C) := by
    rw [hQ]
    have h12 : (12 : Nat) = ([0, 0, 0, 0, 0, 1, 0, 0, 0, 0, 0, 0] : List Nat).length := rfl
    rw [h12, drop_len_append]
  have hrn : readName (buildQueryFor (joinDot parts) T C) fuel 12 =
      .ok ⟨parts, 12 + (encNameBytes parts).length⟩ := by
    rw [readName]
    have := readNameAux_plain parts (buildQueryFor (joinDot parts) T C) fuel 12 [] false 12
      (writeU16 T ++ writeU16 C) hdrop12 hlens2 hfuel
    rw [this]
    try simp
  refine ⟨⟨parts, 12 + (encNameBytes parts).length⟩, hrn, rfl, ?_, ?_⟩
  · have hdropL : (buildQueryFor (joinDot parts) T C).drop (12 + (encNameBytes parts).length) =
        T / 256 % 256 :: T % 256 :: writeU16 C := by
      rw [drop_shift _ 12 _, hdrop12, drop_len_append]
      rfl
    have := readUInt16BE_ofDrop _ _ _ _ _ hdropL
    rw [this]
    congr 1
    omega
  · have hdropC : (buildQueryFor (joinDot parts) T C).drop (12 + (encNameBytes parts).length + 2) =
        C / 256 % 256 :: C % 256 :: [] := by
      rw [drop_shift _ (12 + (encNameBytes parts).length) 2, drop_shift _ 12 _, hdrop12,
        drop_len_append]
      rfl
    have := readUInt16BE_ofDrop _ _ _ _ _ hdropC
    rw [this]
    congr 1
    omega

/-- Witness for C9 with the one-label name "a", type 12, class 1. -/
theorem buildQuery_roundtrip_witness :
    ∃ r, readName (buildQueryFor (joinDot [[97]]) 12 1) 2 12 = .ok r ∧
      r.labels = [[97]] ∧
      readUInt16BE (buildQueryFor (joinDot [[97]]) 12 1) r.readBytes = some 12 ∧
      readUInt16BE (buildQueryFor (joinDot [[97]]) 12 1) (r.readBytes + 2) = some 1 :=
  buildQuery_roundtrip [[97]] 12 1 2 (by decide) (by decide) (by decide) (by decide)

end MdnsCodec

namespace MdnsCodec

/-- Decomposition of a successful parseRecord: the name decode, the four
record-header reads and the rdata dispatch all succeeded. -/
theorem parseRecord_unfold (b : Buf) (fuel off : Nat) (r : DNSRecord)
    (h : parseRecord b fuel off = .ok r) :
    ∃ nr ty cls ttl rdlength,
      readName b fuel off = .ok nr ∧
      readUInt16BE b nr.readBytes = some ty ∧
      readUInt16BE b (nr.readBytes + 2) = some cls ∧
      readUInt32BE b (nr.readBytes + 4) = some ttl ∧
      readUInt16BE b (nr.readBytes + 8) = some rdlength ∧
      parseRdata b fuel (joinDot nr.labels) ty cls ttl rdlength (nr.readBytes + 10) = .ok r := by
  rw [parseRecord] at h
  cases hrn : readName b fuel off with
  | err => rw [hrn] at h; exact RunRes.noConfusion h
  | timeout => rw [hrn] at h; exact RunRes.noConfusion h
  | ok nr =>
    rw [hrn] at h
    dsimp only at h
    cases h1 : readUInt16BE b nr.readBytes with
    | none => rw [h1] at h; exact RunRes.noConfusion h
    | some ty =>
      rw [h1] at h
      cases h2 : readUInt16BE b (nr.readBytes + 2) with
      | none => rw [h2] at h; exact RunRes.noConfusion h
      | some cls =>
        rw [h2] at h
        cases h3 : readUInt32BE b (nr.readBytes + 4) with
        | none => rw [h3] at h; exact RunRes.noConfusion h
        | some ttl =>
          rw [h3] at h
          cases h4 : readUInt16BE b (nr.readBytes + 8) with
          | none => rw [h4] at h; exact RunRes.noConfusion h
          | some rdlength =>
            rw [h4] at h
            exact ⟨nr, ty, cls, ttl, rdlength, rfl, h1, h2, h3, h4, h⟩

/-- Every successful parseRdata carries its type and rdlength arguments
through to the returned record. -/
theorem parseRdata_fields (b : Buf) (fuel : Nat) (name : List Nat)
    (ty cls ttl rdlength off : Nat) (r : DNSRecord)
    (h : parseRdata b fuel name ty cls ttl rdlength off = .ok r) :
    r.type = ty ∧ r.rdlength = rdlength := by
  rw [parseRdata] at h
  split_ifs at h
  · cases hrn : readName b fuel off with
    | err => rw [hrn] at h; exact RunRes.noConfusion h
    | timeout => rw [hrn] at h; exact RunRes.noConfusion h
    | ok nr => rw [hrn] at h; injection h with h2; rw [← h2]; exact ⟨rfl, rfl⟩
  · cases h1 : readUInt16BE b off with
    | none => rw [h1] at h; exact RunRes.noConfusion h
    | some pri =>
      rw [h1] at h
      cases h2 : readUInt16BE b (off + 2) with
      | none => rw [h2] at h; exact RunRes.noConfusion h
      | some wt =>
        rw [h2] at h
        cases h3 : readUInt16BE b (off + 4) with
        | none => rw [h3] at h; exact RunRes.noConfusion h
        | some port =>
          rw [h3] at h
          dsimp only at h
          cases hrn : readName b fuel (off + 6) with
          | err => rw [hrn] at h; exact RunRes.noConfusion h
          | timeout => rw [hrn] at h; exact RunRes.noConfusion h
          | ok tr => rw [hrn] at h; injection h with h2; rw [← h2]; exact ⟨rfl, rfl⟩
  · cases ht : parseTxtAux b (off + rdlength) rdlength off [] with
    | err => rw [ht] at h; exact RunRes.noConfusion h
    | timeout => rw [ht] at h; exact RunRes.noConfusion h
    | ok mr => rw [ht] at h; injection h with h2; rw [← h2]; exact ⟨rfl, rfl⟩
  · cases ha : readBytesN b off rdlength with
    | none => rw [ha] at h; exact RunRes.noConfusion h
    | some bs => rw [ha] at h; injection h with h2; rw [← h2]; exact ⟨rfl, rfl⟩
  · injection h with h2; rw [← h2]; exact ⟨rfl, rfl⟩

/-- Successful PTR dispatch: an inner name decode succeeded and the
returned record advances the offset by rdlength. -/
theorem parseRdata_ptr (b : Buf) (fuel : Nat) (name : List Nat)
    (cls ttl rdlength off : Nat) (r : DNSRecord)
    (h : parseRdata b fuel name 12 cls ttl rdlength off = .ok r) :
    ∃ nr, readName b fuel off = .ok nr ∧
      r = ⟨name, 12, cls, ttl, rdlength, .ptrName (joinDot nr.labels), off + rdlength⟩ := by
  rw [parseRdata, if_pos rfl] at h
  cases hrn : readName b fuel off with
  | err => rw [hrn] at h; exact RunRes.noConfusion h
  | timeout => rw [hrn] at h; exact RunRes.noConfusion h
  | ok nr =>
    rw [hrn] at h
    injection h with h2
    exact ⟨nr, rfl, h2.symm⟩

/-- Successful SRV dispatch: priority, weight and port are the three
consecutive big-endian u16 fields of the rdata, the target name is
decoded at rdata offset + 6, and the offset advances by rdlength. -/
theorem parseRdata_srv (b : Buf) (fuel : Nat) (name : List Nat)
    (cls ttl rdlength off : Nat) (r : DNSRecord)
    (h : parseRdata b fuel name 33 cls ttl rdlength off = .ok r) :
    ∃ pri wt port tr,
      readUInt16BE b off = some pri ∧
      readUInt16BE b (off + 2) = some wt ∧
      readUInt16BE b (off + 4) = some port ∧
      readName b fuel (off + 6) = .ok tr ∧
      r = ⟨name, 33, cls, ttl, rdlength, .srv pri wt port (joinDot tr.labels), off + rdlength⟩ := by
  rw [parseRdata, if_neg (by decide : ¬ ((33 : Nat) = 12)), if_pos rfl] at h
  cases h1 : readUInt16BE b off with
  | none => rw [h1] at h; exact RunRes.noConfusion h
  | some pri =>
    rw [h1] at h
    cases h2 : readUInt16BE b (off + 2) with
    | none => rw [h2] at h; exact RunRes.noConfusion h
    | some wt =>
      rw [h2] at h
      cases h3 : readUInt16BE b (off + 4) with
      | none => rw [h3] at h; exact RunRes.noConfusion h
      | some port =>
        rw [h3] at h
        dsimp only at h
        cases hrn : readName b fuel (off + 6) with
        | err => rw [hrn] at h; exact RunRes.noConfusion h
        | timeout => rw [hrn] at h; exact RunRes.noConfusion h
        | ok tr =>
          rw [hrn] at h
          injection h with h2
          exact ⟨pri, wt, port, tr, rfl, rfl, rfl, rfl, h2.symm⟩

end MdnsCodec

namespace MdnsCodec

/-- Claim C6: for a successfully parsed record of type 12 (PTR) or 33
(SRV), the next-record offset is the start of the rdata (10 bytes past
the name's readBytes) plus the declared rdlength — not the inner name
decode's consumed count; and for SRV the rdata is priority, weight and
port read as three consecutive big-endian u16 fields followed by the
target name decoded at rdata offset + 6. -/
theorem parseRecord_ptr_srv_advance (b : Buf) (fuel off : Nat) (r : DNSRecord)
    (h : parseRecord b fuel off = .ok r) :
    ((r.type = 12 ∨ r.type = 33) →
      ∃ nr, readName b fuel off = .ok nr ∧ r.offset = nr.readBytes + 10 + r.rdlength) ∧
    (r.type = 33 →
      ∃ nr pri wt port tr,
        readName b fuel off = .ok nr ∧
        readUInt16BE b (nr.readBytes + 10) = some pri ∧
        readUInt16BE b (nr.readBytes + 10 + 2) = some wt ∧
        readUInt16BE b (nr.readBytes + 10 + 4) = some port ∧
        readName b fuel (nr.readBytes + 10 + 6) = .ok tr ∧
        r.rdata = .srv pri wt port (joinDot tr.labels)) := by
  obtain ⟨nr, ty, cls, ttl, rdlength, hrn, h1, h2, h3, h4, hp⟩ :=
    parseRecord_unfold b fuel off r h
  have hfields := parseRdata_fields b fuel (joinDot nr.labels) ty cls ttl rdlength
    (nr.readBytes + 10) r hp
  constructor
  · rintro (h12 | h33)
    · have hty : ty = 12 := by rw [← hfields.1]; exact h12
      subst hty
      obtain ⟨nr2, _, hr⟩ := parseRdata_ptr b fuel (joinDot nr.labels) cls ttl rdlength
        (nr.readBytes + 10) r hp
      subst hr
      exact ⟨nr, hrn, rfl⟩
    · have hty : ty = 33 := by rw [← hfields.1]; exact h33
      subst hty
      obtain ⟨pri, wt, port, tr, _, _, _, _, hr⟩ := parseRdata_srv b fuel (joinDot nr.labels)
        cls ttl rdlength (nr.readBytes + 10) r hp
      subst hr
      exact ⟨nr, hrn, rfl⟩
  · intro h33
    have hty : ty = 33 := by rw [← hfields.1]; exact h33
    subst hty
    obtain ⟨pri, wt, port, tr, hp1, hp2, hp3, htr, hr⟩ := parseRdata_srv b fuel
      (joinDot nr.labels) cls ttl rdlength (nr.readBytes + 10) r hp
    subst hr
    exact ⟨nr, pri, wt, port, tr, hrn, hp1,
      by rw [Nat.add_assoc] at hp2; exact hp2,
      by rw [Nat.add_assoc] at hp3; exact hp3,
      by rw [Nat.add_assoc] at htr; exact htr, rfl⟩

/-- Witness for C6 on a concrete PTR record whose rdlength (2) differs
from the inner name decode's consumed count (1): the next-record offset
13 is rdata start 11 plus rdlength 2. -/
theorem parseRecord_ptr_srv_advance_witness :
    ∃ nr, readName [0, 0, 12, 0, 1, 0, 0, 0, 0, 0, 2, 0, 9] 8 0 = .ok nr ∧
      (13 : Nat) = nr.readBytes + 10 + 2 := by
  have h := parseRecord_ptr_srv_advance [0, 0, 12, 0, 1, 0, 0, 0, 0, 0, 2, 0, 9] 8 0
    ⟨[], 12, 1, 0, 2, .ptrName [], 13⟩ (by decide)
  exact h.1 (Or.inl rfl)

end MdnsCodec

namespace MdnsCodec

/-- A well-formed one-record message: empty header name, type 5 (an
"other" type, stored as a raw span), class 1, ttl 0, rdlength 4 and a
4-byte rdata. 27 bytes in total. -/
def truncDemoFull : Buf :=
  [0, 0, 0, 0, 0, 0, 0, 1, 0, 0, 0, 0, 0, 0, 5, 0, 1, 0, 0, 0, 0, 0, 4, 1, 2, 3, 4]

/-- The same message truncated at byte boundary 25, two bytes before the
last record's end. -/
def truncDemoCut : Buf := truncDemoFull.take 25

/-- Claim C3 (code_bug evidence): the full 27-byte message is well
formed and decodes; truncating it at boundary 25 — strictly before the
last record's end — still decodes successfully, returning a record whose
raw rdata was silently clamped from 4 declared bytes to the 2 available,
instead of failing. Buffer.slice clamps, so no error is raised. -/
theorem parseDNSMessage_truncated_success :
    truncDemoFull.length = 27 ∧ truncDemoCut.length = 25 ∧
    parseDNSMessage truncDemoFull 8 =
      .ok (⟨0, 0, 0, 1, 0, 0⟩, [⟨[], 5, 1, 0, 4, .raw [1, 2, 3, 4], 27⟩]) ∧
    parseDNSMessage truncDemoCut 8 =
      .ok (⟨0, 0, 0, 1, 0, 0⟩, [⟨[], 5, 1, 0, 4, .raw [1, 2], 27⟩]) := by
  decide

/-- A TXT record whose declared rdlength is 3 but whose first sub-string
length byte claims 5 bytes: the sub-strings do not tile the rdata. -/
def txtOvershootBuf : Buf :=
  [0, 0, 16, 0, 1, 0, 0, 0, 0, 0, 3, 5, 97, 98, 99, 100]

/-- Claim C7 (code_bug evidence): on a TXT record whose sub-string
overshoots the declared rdlength 3 (rdata spans offsets 11 to 14), the
decoder succeeds instead of failing: it reads the 5-byte sub-string
across the rdata boundary (bytes 97..100, clamped at the buffer end) and
returns next-record offset 17, past both the rdata end 14 and the
buffer. No MalformedTxtRecord check exists. -/
theorem parseRecord_txt_overshoot_succeeds :
    parseRecord txtOvershootBuf 8 0 =
      .ok ⟨[], 16, 1, 0, 3, .txt [([97, 98, 99, 100], .flag)], 17⟩ ∧
    (17 : Nat) ≠ 11 + 3 := by
  decide

theorem indexOfEq_of_not_mem : ∀ (s : List Nat), (∀ c ∈ s, c ≠ 61) → indexOfEq s = none
  | [], _ => rfl
  | c :: rest, h => by
    have hc : c ≠ 61 := h c (by simp)
    have ih := indexOfEq_of_not_mem rest (fun d hd => h d (by simp [hd]))
    simp [indexOfEq, hc, ih]

theorem indexOfEq_append : ∀ (pre post : List Nat), (∀ c ∈ pre, c ≠ 61) →
    indexOfEq (pre ++ 61 :: post) = some pre.length
  | [], post, _ => by simp [indexOfEq]
  | c :: pre, post, h => by
    have hc : c ≠ 61 := h c (by simp)
    have ih := indexOfEq_append pre post (fun d hd => h d (by simp [hd]))
    simp [indexOfEq, hc, ih]

theorem txtSplit_of_no_eq (s : List Nat) (h : ∀ c ∈ s, c ≠ 61) :
    txtSplit s = (s, .flag) := by
  rw [txtSplit, indexOfEq_of_not_mem s h]

theorem txtSplit_first_eq (pre post : List Nat) (h : ∀ c ∈ pre, c ≠ 61) :
    txtSplit (pre ++ 61 :: post) = (pre, .str post) := by
  rw [txtSplit, indexOfEq_append pre post h]
  have htake : (pre ++ 61 :: post).take pre.length = pre := take_len_append pre (61 :: post)
  have hdropped : (pre ++ 61 :: post).drop (pre.length + 1) = post := by
    rw [drop_shift (pre ++ 61 :: post) pre.length 1, drop_len_append]
    rfl
  dsimp only
  rw [htake, hdropped]

theorem lookupTxt_insertTxt : ∀ (m : List (List Nat × TxtVal)) (k : List Nat) (v : TxtVal),
    lookupTxt (insertTxt m k v) k = some v
  | [], k, v => by simp [insertTxt, lookupTxt]
  | (k2, v2) :: rest, k, v => by
    by_cases hk : k2 = k
    · simp [insertTxt, hk, lookupTxt]
    · simp [insertTxt, hk, lookupTxt, lookupTxt_insertTxt rest k v]

/-- The TXT rdata bytes exactly as the claim enumerates them: length
prefix 6 followed by the seven bytes of "ver=1.0", then 4 and "flag". -/
def txtClaimedBuf : Buf :=
  [0, 0, 16, 0, 1, 0, 0, 0, 0, 0, 13, 6, 118, 101, 114, 61, 49, 46, 48, 4, 102, 108, 97, 103]

/-- The same record with the length prefix corrected to 7, matching the
7-byte sub-string "ver=1.0". -/
def txtAmendedBuf : Buf :=
  [0, 0, 16, 0, 1, 0, 0, 0, 0, 0, 13, 7, 118, 101, 114, 61, 49, 46, 48, 4, 102, 108, 97, 103]

/-- Claim C8 counterexample: the claimed byte sequence, whose first
length prefix is 6 although "ver=1.0" has 7 bytes, does not decode to
the claimed mapping: the first sub-string is "ver=1." (key "ver", value
"1."), and the trailing byte 48 is then read as a length prefix of 48,
producing the flag key [4, 102, 108, 97, 103] — not "flag". -/
theorem parseRecord_txt_claimed_bytes_mismatch :
    parseRecord txtClaimedBuf 8 0 =
      .ok ⟨[], 16, 1, 0, 13,
        .txt [(strBytes "ver", .str (strBytes "1.")), (4 :: strBytes "flag", .flag)], 67⟩ ∧
    Rdata.txt [(strBytes "ver", .str (strBytes "1.")), (4 :: strBytes "flag", .flag)] ≠
      Rdata.txt [(strBytes "ver", .str (strBytes "1.0")), (strBytes "flag", .flag)] := by
  decide

/-- Claim C8 as amended (length prefix 7 instead of 6): the TXT rdata
07 "ver=1.0" 04 "flag" decodes to the mapping ver to "1.0" and flag to
true; in general each sub-string is split on its first equals sign into
key and string value, a sub-string with no equals sign becomes a flag
key, and storing a duplicate key keeps the last written value. -/
theorem parseRecord_txt_mapping :
    (parseRecord txtAmendedBuf 8 0 =
      .ok ⟨[], 16, 1, 0, 13,
        .txt [(strBytes "ver", .str (strBytes "1.0")), (strBytes "flag", .flag)], 24⟩) ∧
    (∀ pre post : List Nat, (∀ c ∈ pre, c ≠ 61) →
      txtSplit (pre ++ 61 :: post) = (pre, .str post)) ∧
    (∀ s : List Nat, (∀ c ∈ s, c ≠ 61) → txtSplit s = (s, .flag)) ∧
    (∀ (m : List (List Nat × TxtVal)) (k : List Nat) (v : TxtVal),
      lookupTxt (insertTxt m k v) k = some v) :=
  ⟨by decide, txtSplit_first_eq, txtSplit_of_no_eq, lookupTxt_insertTxt⟩

/-- Witness for C8 instantiating the general clauses at concrete
inputs. -/
theorem parseRecord_txt_mapping_witness :
    txtSplit ([118] ++ 61 :: [49]) = ([118], .str [49]) ∧
    txtSplit [102] = ([102], .flag) ∧
    lookupTxt (insertTxt [([97], .str [50])] [97] .flag) [97] = some .flag :=
  ⟨parseRecord_txt_mapping.2.1 [118] [49] (by decide),
   parseRecord_txt_mapping.2.2.1 [102] (by decide),
   parseRecord_txt_mapping.2.2.2 [([97], .str [50])] [97] .flag⟩

end MdnsCodec
